import Mathlib

/-!
# Verification of the Kagula persistent `Project`/`Track`/`Event` model

Shallow embedding of the immutable aggregate core of the repository:

* `src/core/track.ts` (`Track`: constructor, `create`, `addEvent`,
  `removeEvent`, `getEventsInRange`, `getEvents`),
* `src/core/project.ts` (`Project`: constructor, `addTrack`,
  `addTrackInstance`, `removeTrack`, `getTrack(s)`, `getTrackCount`,
  `addNoteEvent`, `addEventInternal`, `removeEvent`, `getEventsInRange`,
  `getEvents`),
* `src/core/time.ts` (`Seconds`, `Ticks` value objects), and
* the "mutable variant" time value objects `src/core/mutable/time.ts`
  (`TimeValue`, `Ticks.toSeconds`, `Seconds.toTicks`).

Modelling conventions:

* JavaScript numbers appearing as tick times are modelled as `Int`
  (ticks are validated non-negative integers; the track/project algorithms
  only compare them).  Where NaN / infinities are semantically relevant
  (the `Seconds` constructor) a dedicated `JSNum` type is used, with
  finite values carried as rationals.
* `Array.prototype.sort(cmp)` with the comparator
  `(a, b) => a.time.value - b.time.value` is a *stable* sort by the
  ECMAScript specification.  For a total preorder the stable-sorted
  result is unique (sorted, and each class of equal keys keeps the input
  order), so it is modelled by the executable stable sort `sortByTime`
  below (left fold of an insertion placing each new element behind all
  elements of less-or-equal key); theorems `sortByTime_sorted`,
  `filter_time_sortByTime`, `sortByTime_perm` establish exactly the
  properties the ECMAScript contract guarantees.
* A JavaScript `Map` (insertion ordered, `set` replaces in place) is
  modelled as an association list with `mapSet` / `buildTracksMap`.
* Exceptions (`InvalidArgumentError`) are modelled with `Except Err`;
  `instanceof` guards are statically satisfied in the typed embedding.
* The `Event` base class carrying `id` and `time` is referenced by
  `Track`/`Project`/`Note` but its own file is not present in the
  sources; its two fields are reconstructed from its uses
  (`super(id, time)` in `Note`, `e.id` / `e.time.value` in `Track`).
-/

namespace Kagula

/-- The single error kind of the core (`InvalidArgumentError`). -/
inductive Err where
  | invalidArgument
deriving DecidableEq, Repr

/-- Value object `Ticks` (`src/core/time.ts`): a validated non-negative
integer number of ticks.  The stored `value` field; the constructor
validation (`Number.isInteger`, `value >= 0`) is `Ticks.make` below. -/
structure Ticks where
  value : Int
deriving DecidableEq, Repr

/-- Payload of the concrete `Event` variants (currently only `Note`:
pitch, velocity, duration).  The track/project algorithms never read it. -/
inductive EventData where
  | note (pitch velocity : Int) (duration : Ticks)
deriving DecidableEq, Repr

/-- An event: the `Event` base class fields `id` and `time` together with
the variant payload.  The base-class file itself is absent from the
sources; the fields follow its uses (`Note`'s `super(id, time)`,
`Track`'s `e.id` and `e.time.value`). -/
structure Event where
  id : String
  time : Ticks
  data : EventData
deriving DecidableEq, Repr

/-- The sort key order used everywhere: non-decreasing `time.value`. -/
def timeLe (a b : Event) : Prop := a.time.value ≤ b.time.value

instance : DecidableRel timeLe := fun a b =>
  inferInstanceAs (Decidable (a.time.value ≤ b.time.value))

/-- One step of the stable sort: insert `e` behind every element whose
time is `≤ e.time.value` (so an element arriving later is placed after
all earlier elements of equal key). -/
def insertBehind (e : Event) : List Event → List Event
  | [] => [e]
  | a :: l => if a.time.value ≤ e.time.value then a :: insertBehind e l else e :: a :: l

/-- Model of `array.sort((a, b) => a.time.value - b.time.value)`:
the unique stable sort by non-decreasing `time.value`, computed by
inserting the elements left to right. -/
def sortByTime (l : List Event) : List Event :=
  l.foldl (fun acc e => insertBehind e acc) []

end Kagula

namespace Kagula

theorem insertBehind_eq_takeWhile_dropWhile (e : Event) (l : List Event) :
    insertBehind e l =
      l.takeWhile (fun a => a.time.value ≤ e.time.value) ++
        e :: l.dropWhile (fun a => a.time.value ≤ e.time.value) := by
  induction l with
  | nil => rfl
  | cons a l ih =>
    by_cases h : a.time.value ≤ e.time.value
    · simp [insertBehind, List.takeWhile_cons, List.dropWhile_cons, h, ih]
    · simp [insertBehind, List.takeWhile_cons, List.dropWhile_cons, h]

theorem insertBehind_perm (e : Event) (l : List Event) :
    List.Perm (insertBehind e l) (e :: l) := by
  rw [insertBehind_eq_takeWhile_dropWhile]
  have h1 : List.Perm
      (l.takeWhile (fun a => a.time.value ≤ e.time.value) ++
        e :: l.dropWhile (fun a => a.time.value ≤ e.time.value))
      (e :: (l.takeWhile (fun a => a.time.value ≤ e.time.value) ++
        l.dropWhile (fun a => a.time.value ≤ e.time.value))) := List.perm_middle
  rw [List.takeWhile_append_dropWhile] at h1
  exact h1

theorem mem_insertBehind {b e : Event} {l : List Event} :
    b ∈ insertBehind e l ↔ b = e ∨ b ∈ l := by
  rw [(insertBehind_perm e l).mem_iff, List.mem_cons]

theorem sorted_insertBehind {l : List Event} (e : Event)
    (h : l.Sorted timeLe) : (insertBehind e l).Sorted timeLe := by
  induction l with
  | nil => simp [insertBehind, List.Sorted]
  | cons a l ih =>
    rcases List.sorted_cons.mp h with ⟨ha, hl⟩
    by_cases hle : a.time.value ≤ e.time.value
    · have heq : insertBehind e (a :: l) = a :: insertBehind e l := by
        simp only [insertBehind, if_pos hle]
      rw [heq]
      refine List.sorted_cons.mpr ⟨?_, ih hl⟩
      intro b hb
      rcases mem_insertBehind.mp hb with hbe | hbl
      · subst hbe; exact hle
      · exact ha b hbl
    · have heq : insertBehind e (a :: l) = e :: a :: l := by
        simp only [insertBehind, if_neg hle]
      rw [heq]
      refine List.sorted_cons.mpr ⟨?_, h⟩
      intro b hb
      rcases List.mem_cons.mp hb with h1 | h1
      · subst h1; exact le_of_not_le hle
      · exact le_trans (le_of_not_le hle) (ha b h1)

theorem sortByTime_go_sorted (l : List Event) (acc : List Event)
    (h : acc.Sorted timeLe) :
    (l.foldl (fun acc e => insertBehind e acc) acc).Sorted timeLe := by
  induction l generalizing acc with
  | nil => simpa using h
  | cons e l ih => exact ih _ (sorted_insertBehind e h)

/-- The sort model always produces a list sorted by non-decreasing time. -/
theorem sortByTime_sorted (l : List Event) : (sortByTime l).Sorted timeLe :=
  sortByTime_go_sorted l [] (by simp [List.Sorted])

theorem sortByTime_go_perm (l : List Event) (acc : List Event) :
    List.Perm (l.foldl (fun acc e => insertBehind e acc) acc) (acc ++ l) := by
  induction l generalizing acc with
  | nil => simp
  | cons e l ih =>
    have h1 := ih (insertBehind e acc)
    have h2 : List.Perm (insertBehind e acc ++ l) (acc ++ e :: l) := by
      have hstep : List.Perm (insertBehind e acc ++ l) ((e :: acc) ++ l) :=
        (insertBehind_perm e acc).append_right l
      exact hstep.trans List.perm_middle.symm
    simpa using h1.trans h2

/-- The sort model permutes its input. -/
theorem sortByTime_perm (l : List Event) : List.Perm (sortByTime l) l := by
  simpa using sortByTime_go_perm l []

/-- One insertion step of the stability argument: inserting `e` into a
sorted accumulator appends `e` at the end of its equal-time class and
leaves every other class untouched. -/
theorem filter_time_insertBehind (e : Event) (l : List Event) (v : Int)
    (h : l.Sorted timeLe) :
    (insertBehind e l).filter (fun a => a.time.value == v) =
      if e.time.value = v then
        l.filter (fun a => a.time.value == v) ++ [e]
      else
        l.filter (fun a => a.time.value == v) := by
  induction l with
  | nil =>
    by_cases hv : e.time.value = v <;>
      simp [insertBehind, List.filter_cons, hv]
  | cons a l ih =>
    rcases List.sorted_cons.mp h with ⟨ha, hl⟩
    by_cases hle : a.time.value ≤ e.time.value
    · have heq : insertBehind e (a :: l) = a :: insertBehind e l := by
        simp only [insertBehind, if_pos hle]
      rw [heq, List.filter_cons, List.filter_cons, ih hl]
      by_cases hv : e.time.value = v <;>
        by_cases hav : a.time.value == v <;>
          simp [hv, hav]
    · have hgt : e.time.value < a.time.value := lt_of_not_le hle
      have heq : insertBehind e (a :: l) = e :: a :: l := by
        simp only [insertBehind, if_neg hle]
      rw [heq]
      by_cases hv : e.time.value = v
      · have hnil : (a :: l).filter (fun a => a.time.value == v) = [] := by
          rw [List.filter_eq_nil_iff]
          intro b hb
          rcases List.mem_cons.mp hb with hb1 | hb1
          · subst hb1; simp only [beq_iff_eq]; omega
          · have := ha b hb1
            simp only [timeLe] at this
            simp only [beq_iff_eq]; omega
        have hfe : (e :: a :: l).filter (fun a => a.time.value == v) =
            e :: (a :: l).filter (fun a => a.time.value == v) := by
          rw [List.filter_cons]
          simp [hv]
        rw [if_pos hv, hfe, hnil]
        simp
      · have hfe : (e :: a :: l).filter (fun a => a.time.value == v) =
            (a :: l).filter (fun a => a.time.value == v) := by
          rw [List.filter_cons]
          simp [hv]
        rw [if_neg hv, hfe]

theorem filter_time_sortByTime_go (l : List Event) (acc : List Event) (v : Int)
    (h : acc.Sorted timeLe) :
    (l.foldl (fun acc e => insertBehind e acc) acc).filter
        (fun a => a.time.value == v) =
      acc.filter (fun a => a.time.value == v) ++
        l.filter (fun a => a.time.value == v) := by
  induction l generalizing acc with
  | nil => simp
  | cons e l ih =>
    have hstep := ih (insertBehind e acc) (sorted_insertBehind e h)
    rw [List.foldl_cons] at *
    rw [hstep, filter_time_insertBehind e acc v h, List.filter_cons]
    by_cases hv : e.time.value = v
    · simp [hv]
    · simp [hv]

/-- Stability of the sort model: for every time value `v`, the events
of time `v` appear in `sortByTime l` exactly as they appear in `l`
(same events, same relative order). -/
theorem filter_time_sortByTime (l : List Event) (v : Int) :
    (sortByTime l).filter (fun a => a.time.value == v) =
      l.filter (fun a => a.time.value == v) := by
  simpa using filter_time_sortByTime_go l [] v (by simp [List.Sorted])

theorem insertBehind_of_forall_le (e : Event) (acc : List Event)
    (h : ∀ a ∈ acc, a.time.value ≤ e.time.value) :
    insertBehind e acc = acc ++ [e] := by
  induction acc with
  | nil => rfl
  | cons a l ih =>
    have ha := h a (List.mem_cons_self a l)
    have heq : insertBehind e (a :: l) = a :: insertBehind e l := by
      simp only [insertBehind, if_pos ha]
    rw [heq, ih fun b hb => h b (List.mem_cons_of_mem a hb)]
    rfl

theorem sortByTime_go_of_sorted (l : List Event) (acc : List Event)
    (h : (acc ++ l).Sorted timeLe) :
    l.foldl (fun acc e => insertBehind e acc) acc = acc ++ l := by
  induction l generalizing acc with
  | nil => simp
  | cons e l ih =>
    have hcross : ∀ a ∈ acc, a.time.value ≤ e.time.value := by
      intro a hamem
      have := (List.pairwise_append.mp h).2.2 a hamem e (List.mem_cons_self e l)
      simpa [timeLe] using this
    have hins : insertBehind e acc = acc ++ [e] :=
      insertBehind_of_forall_le e acc hcross
    rw [List.foldl_cons, hins, ih (acc ++ [e]) (by simpa using h)]
    simp

/-- Sorting an already-sorted list leaves it unchanged. -/
theorem sortByTime_of_sorted {l : List Event} (h : l.Sorted timeLe) :
    sortByTime l = l := by
  simpa using sortByTime_go_of_sorted l [] (by simpa using h)

/-- `Track` (`src/core/track.ts`): id, name, and the event sequence the
constructor stored (already sorted by the constructor, see
`Track.make`).  In the source the events array is `private readonly`. -/
structure Track where
  id : String
  name : String
  events : List Event
deriving DecidableEq, Repr

/-- `new Track(id, name = "", events = [])`: validates the elements
(statically satisfied here) and stores a sorted copy of `events`
(`[...events].sort((a, b) => a.time.value - b.time.value)`). -/
def Track.make (id : String) (name : String := "") (events : List Event := []) : Track :=
  ⟨id, name, sortByTime events⟩

/-- `Track.create(props?, events = [])`: a fresh id from the injected
generator (passed here explicitly as `freshId`) and the optional name. -/
def Track.create (freshId : String) (name : String := "") (events : List Event := []) : Track :=
  Track.make freshId name events

/-- `track.addEvent(event)`: new `Track` built from the old events plus
the appended event (`[...this.events, event]`); the constructor re-sorts. -/
def Track.addEvent (t : Track) (e : Event) : Track :=
  Track.make t.id t.name (t.events ++ [e])

/-- `track.removeEvent(eventId)`: new `Track` built from
`this.events.filter((e) => e.id !== eventId)`. -/
def Track.removeEvent (t : Track) (eventId : String) : Track :=
  Track.make t.id t.name (t.events.filter (fun e => e.id != eventId))

/-- `track.getEvents()`: the stored event sequence. -/
def Track.getEvents (t : Track) : List Event :=
  t.events

/-- The range filter `startTicks <= e.time.value && e.time.value <= endTicks`. -/
def inRange (startTicks endTicks : Int) (e : Event) : Bool :=
  decide (startTicks ≤ e.time.value) && decide (e.time.value ≤ endTicks)

/-- `track.getEventsInRange(startTicks, endTicks)`: throws
`InvalidArgumentError` when `startTicks < 0 || endTicks < startTicks`,
otherwise filters the stored events by the inclusive range. -/
def Track.getEventsInRange (t : Track) (startTicks endTicks : Int) :
    Except Err (List Event) :=
  if startTicks < 0 ∨ endTicks < startTicks then
    .error .invalidArgument
  else
    .ok (t.events.filter (inRange startTicks endTicks))

/-- `Project` (`src/core/project.ts`): the constructor keeps its raw
argument array as the `tracksArray` cache; the id-keyed `Map` is built
from the same list (see `Project.tracksMap`).  `tracks` below is that
constructor argument. -/
structure Project where
  tracks : List Track
deriving DecidableEq, Repr

/-- `map.set(k, v)` on a JavaScript `Map` modelled as an insertion-ordered
association list: an existing key is updated in place, a new key is
appended. -/
def mapSet (m : List (String × Track)) (k : String) (v : Track) :
    List (String × Track) :=
  if m.any (fun p => p.1 == k) then
    m.map (fun p => if p.1 = k then (k, v) else p)
  else
    m ++ [(k, v)]

/-- The constructor loop `for (const track of tracks) tracksMap.set(track.id, track)`. -/
def buildTracksMap (ts : List Track) : List (String × Track) :=
  ts.foldl (fun m t => mapSet m t.id t) []

/-- The project's private `tracks` map (id-indexed, insertion ordered). -/
def Project.tracksMap (p : Project) : List (String × Track) :=
  buildTracksMap p.tracks

/-- `project.getTrack(trackId)` / `getTrackInternal`: `this.tracks.get(trackId)`. -/
def Project.getTrack (p : Project) (trackId : String) : Option Track :=
  (p.tracksMap.find? (fun kv => kv.1 == trackId)).map (fun kv => kv.2)

/-- `project.getTracks()`: `Array.from(this.tracks.values())`. -/
def Project.getTracks (p : Project) : List Track :=
  p.tracksMap.map (fun kv => kv.2)

/-- `project.getTrackCount()`: `this.tracks.size`. -/
def Project.getTrackCount (p : Project) : Nat :=
  p.tracksMap.length

/-- `project.addTrackInstance(track)` (internal): new `Project` from
`[...Array.from(this.tracks.values()), track]`. -/
def Project.addTrackInstance (p : Project) (t : Track) : Project :=
  ⟨p.getTracks ++ [t]⟩

/-- `project.addTrack(props?)`: creates a track with a generator-produced
id (`freshId` here) and returns the updated project with the new track. -/
def Project.addTrack (p : Project) (freshId : String) (name : String := "") :
    Project × Track :=
  let t := Track.create freshId name []
  (p.addTrackInstance t, t)

/-- `project.removeTrack(trackId)`: new `Project` from
`Array.from(this.tracks.values()).filter((t) => t.id !== trackId)`. -/
def Project.removeTrack (p : Project) (trackId : String) : Project :=
  ⟨p.getTracks.filter (fun t => t.id != trackId)⟩

/-- `project.addEventInternal(trackId, event)` (internal): throws when
`trackId` is unknown, otherwise replaces every `tracksArray` entry whose
id is `trackId` by `track.addEvent(event)` applied to the map's track. -/
def Project.addEventInternal (p : Project) (trackId : String) (e : Event) :
    Except Err Project :=
  match p.getTrack trackId with
  | none => .error .invalidArgument
  | some tr =>
    .ok ⟨p.tracks.map (fun t => if t.id = trackId then tr.addEvent e else t)⟩

/-- `Note.create(time, pitch, velocity, duration)` followed by the
`Note` constructor's checks: the value-object arguments are instances by
typing; the explicit check is `duration.value <= 0`.  `freshId` stands
for the generated id. -/
def Note.create (freshId : String) (time : Ticks) (pitch velocity : Int)
    (duration : Ticks) : Except Err Event :=
  if duration.value ≤ 0 then
    .error .invalidArgument
  else
    .ok ⟨freshId, time, .note pitch velocity duration⟩

/-- `project.addNoteEvent(trackId, time, pitch, velocity, duration)`:
builds the note (which may throw on a non-positive duration) and
delegates to the internal add-event path. -/
def Project.addNoteEvent (p : Project) (freshId : String) (trackId : String)
    (time : Ticks) (pitch velocity : Int) (duration : Ticks) :
    Except Err (Project × Event) :=
  match Note.create freshId time pitch velocity duration with
  | .error err => .error err
  | .ok note =>
    match p.addEventInternal trackId note with
    | .error err => .error err
    | .ok p2 => .ok (p2, note)

/-- `project.removeEvent(trackId, eventId)`: throws when `trackId` is
unknown, otherwise replaces every `tracksArray` entry whose id is
`trackId` by `track.removeEvent(eventId)` applied to the map's track. -/
def Project.removeEvent (p : Project) (trackId eventId : String) :
    Except Err Project :=
  match p.getTrack trackId with
  | none => .error .invalidArgument
  | some tr =>
    .ok ⟨p.tracks.map (fun t => if t.id = trackId then tr.removeEvent eventId else t)⟩

/-- `project.getEventsInRange(startTicks, endTicks)`: validates the
bounds, then pushes each `tracksArray` entry's `getEventsInRange` result
(the validated bounds make the per-track call return its range filter)
and sorts the concatenation by time. -/
def Project.getEventsInRange (p : Project) (startTicks endTicks : Int) :
    Except Err (List Event) :=
  if startTicks < 0 ∨ endTicks < startTicks then
    .error .invalidArgument
  else
    .ok (sortByTime (p.tracks.map
      (fun t => t.events.filter (inRange startTicks endTicks))).flatten)

/-- `project.getEvents()`: pushes each `tracksArray` entry's events and
sorts the concatenation by time. -/
def Project.getEvents (p : Project) : List Event :=
  sortByTime (p.tracks.map (fun t => t.events)).flatten

end Kagula

namespace Kagula

/-- A JavaScript `number` where NaN and the infinities matter (the value
object constructors).  Finite doubles are idealized as rationals. -/
inductive JSNum where
  | nan
  | posInf
  | negInf
  | finite (q : Rat)
deriving DecidableEq, Repr

/-- JavaScript `<` on numbers: any comparison involving NaN is false. -/
def JSNum.lt : JSNum → JSNum → Bool
  | .nan, _ => false
  | _, .nan => false
  | .posInf, _ => false
  | _, .posInf => true
  | .negInf, .negInf => false
  | .negInf, .finite _ => true
  | .finite _, .negInf => false
  | .finite a, .finite b => decide (a < b)

/-- `Number.isFinite`. -/
def JSNum.isFinite : JSNum → Bool
  | .finite _ => true
  | _ => false

/-- The core `Seconds` value object (`src/core/time.ts`): holds the raw
number. -/
structure Seconds where
  value : JSNum
deriving DecidableEq, Repr

/-- `new Seconds(value)` (`src/core/time.ts`): the only check is
`value < 0` (under JavaScript comparison, so NaN and `Infinity` pass). -/
def Seconds.make (value : JSNum) : Except Err Seconds :=
  if JSNum.lt value (.finite 0) then .error .invalidArgument else .ok ⟨value⟩

/-- `new Ticks(value)` (`src/core/time.ts`): requires
`Number.isInteger(value)` and `value >= 0`; a valid construction stores
the integer. -/
def Ticks.make (value : JSNum) : Except Err Ticks :=
  match value with
  | .finite q => if q.den = 1 then
      (if q.num < 0 then .error .invalidArgument else .ok ⟨q.num⟩)
    else .error .invalidArgument
  | _ => .error .invalidArgument

end Kagula

/-! ## The mutable-variant time value objects (`src/core/mutable/time.ts`)

`TimeValue` validates `typeof value === "number" && Number.isFinite(value)`;
the `Ticks`/`Seconds` subclasses additionally reject negatives.  A valid
instance therefore always carries a finite number, stored as `Rat`.
The tempo parameters of the conversions are taken as rationals as well
(the conversion claims constrain them to be positive, which keeps the
JavaScript arithmetic finite and division well-defined). -/

namespace Kagula
namespace MutableTime

/-- `Math.round`: round half toward positive infinity. -/
def jsRound (q : Rat) : Int := ⌊q + 1 / 2⌋

/-- Mutable-variant `Ticks`: a finite, non-negative number of ticks
(`TimeValue` finiteness check plus the `value < 0` check; note that the
mutable variant has no integrality check). -/
structure Ticks where
  value : Rat
deriving DecidableEq, Repr

/-- Mutable-variant `Seconds`: a finite, non-negative number of seconds. -/
structure Seconds where
  value : Rat
deriving DecidableEq, Repr

/-- `new Ticks(value)` in the mutable variant: the `TimeValue` base
constructor rejects non-finite input, then `value < 0` is rejected. -/
def Ticks.make (value : JSNum) : Except Err Ticks :=
  match value with
  | .finite q => if q < 0 then .error .invalidArgument else .ok ⟨q⟩
  | _ => .error .invalidArgument

/-- `new Seconds(value)` in the mutable variant. -/
def Seconds.make (value : JSNum) : Except Err Seconds :=
  match value with
  | .finite q => if q < 0 then .error .invalidArgument else .ok ⟨q⟩
  | _ => .error .invalidArgument

/-- `ticks.toSeconds(ticksPerBeat, beatsPerMinute)`:
`(this.value / ticksPerBeat) * (60 / beatsPerMinute)` fed to the
`Seconds` constructor. -/
def Ticks.toSeconds (t : Ticks) (ticksPerBeat beatsPerMinute : Rat) :
    Except Err Seconds :=
  Seconds.make (.finite ((t.value / ticksPerBeat) * (60 / beatsPerMinute)))

/-- `seconds.toTicks(ticksPerBeat, beatsPerMinute)`:
`((this.value * beatsPerMinute) / 60) * ticksPerBeat` rounded with
`Math.round` and fed to the `Ticks` constructor. -/
def Seconds.toTicks (s : Seconds) (ticksPerBeat beatsPerMinute : Rat) :
    Except Err Ticks :=
  Ticks.make (.finite (jsRound (s.value * beatsPerMinute / 60 * ticksPerBeat)))

end MutableTime
end Kagula

namespace Kagula

/-- The tracks reachable through the public `Track` operations: the
constructor (from any event list), `Track.create`, `addEvent`,
`removeEvent`. -/
inductive TrackReachable : Track → Prop where
  | make (id name : String) (events : List Event) :
      TrackReachable (Track.make id name events)
  | create (freshId name : String) (events : List Event) :
      TrackReachable (Track.create freshId name events)
  | add (t : Track) (e : Event) :
      TrackReachable t → TrackReachable (t.addEvent e)
  | remove (t : Track) (eventId : String) :
      TrackReachable t → TrackReachable (t.removeEvent eventId)

/-- Every reachable track has events sorted by time, because every
construction path ends in the constructor, which sorts. -/
theorem trackReachable_events_eq_sort (t : Track)
    (h : TrackReachable t) : ∃ l, t.events = sortByTime l := by
  cases h with
  | make id name events => exact ⟨events, rfl⟩
  | create freshId name events => exact ⟨events, rfl⟩
  | add t e _ => exact ⟨t.events ++ [e], rfl⟩
  | remove t eventId _ => exact ⟨t.events.filter (fun e => e.id != eventId), rfl⟩

/-- C1: For every Track reachable through the public operations
(constructor, `Track.create`, `addEvent`, `removeEvent`) — in particular
after any sequence of `addEvent` calls whose times arrive in arbitrary
order — `getEvents()` returns the track's events in non-decreasing order
of `time.value`. -/
theorem track_getEvents_sorted (t : Track) (h : TrackReachable t) :
    t.getEvents.Sorted timeLe := by
  obtain ⟨l, hl⟩ := trackReachable_events_eq_sort t h
  rw [Track.getEvents, hl]
  exact sortByTime_sorted l

/-- Sample events: two distinct times given out of order and a third
event sharing the larger time. -/
def evA : Event := ⟨"evA", ⟨480⟩, .note 60 100 ⟨240⟩⟩

def evB : Event := ⟨"evB", ⟨240⟩, .note 62 90 ⟨120⟩⟩

def evC : Event := ⟨"evC", ⟨480⟩, .note 64 80 ⟨60⟩⟩

/-- Witness for C1 at a concrete reachable track built from events whose
times arrive out of order, plus an appended event. -/
theorem track_getEvents_sorted_witness :
    TrackReachable ((Track.make "t1" "" [evA, evB]).addEvent evC) ∧
      ((Track.make "t1" "" [evA, evB]).addEvent evC).getEvents.Sorted timeLe :=
  ⟨TrackReachable.add _ _ (TrackReachable.make "t1" "" [evA, evB]),
    track_getEvents_sorted _
      (TrackReachable.add _ _ (TrackReachable.make "t1" "" [evA, evB]))⟩

/-- C6: `addEvent` is stable with respect to equal times: on a track
whose events are sorted (the invariant of every reachable track), the
added event lands exactly behind all events of less-or-equal time — in
particular after every already-present event of equal time — and before
all strictly later events; so repeated additions of co-timed events
preserve insertion order. -/
theorem track_addEvent_stable (t : Track) (e : Event)
    (h : t.events.Sorted timeLe) :
    (t.addEvent e).getEvents =
      t.getEvents.takeWhile (fun a => a.time.value ≤ e.time.value) ++
        e :: t.getEvents.dropWhile (fun a => a.time.value ≤ e.time.value) := by
  have h1 : (t.addEvent e).getEvents = sortByTime (t.events ++ [e]) := rfl
  rw [h1, sortByTime, List.foldl_append]
  have h2 : List.foldl (fun acc e => insertBehind e acc) [] t.events
      = sortByTime t.events := rfl
  rw [List.foldl_cons, List.foldl_nil, h2, sortByTime_of_sorted h,
    insertBehind_eq_takeWhile_dropWhile]
  rfl

/-- Witness for C6: adding `evC` (time 480) to a sorted track already
holding `evB` (240) and `evA` (480) places it after `evA`. -/
theorem track_addEvent_stable_witness :
    (Track.mk "t1" "" [evB, evA]).events.Sorted timeLe ∧
      ((Track.mk "t1" "" [evB, evA]).addEvent evC).getEvents =
        (Track.mk "t1" "" [evB, evA]).getEvents.takeWhile
            (fun a => a.time.value ≤ evC.time.value) ++
          evC :: (Track.mk "t1" "" [evB, evA]).getEvents.dropWhile
            (fun a => a.time.value ≤ evC.time.value) :=
  ⟨by decide, track_addEvent_stable _ evC (by decide)⟩

/-- C3: `getEventsInRange` fails with `InvalidArgumentError` exactly when
`startTicks < 0` or `endTicks < startTicks`; otherwise (including the
zero-width case) it returns exactly the events with
`startTicks ≤ time.value ≤ endTicks`, in ascending time order (on a
track satisfying the sortedness invariant). -/
theorem track_getEventsInRange_spec (t : Track) (s e : Int)
    (h : t.events.Sorted timeLe) :
    ((t.getEventsInRange s e = .error .invalidArgument) ↔ (s < 0 ∨ e < s)) ∧
      ∀ l, t.getEventsInRange s e = .ok l →
        l = t.getEvents.filter (inRange s e) ∧ l.Sorted timeLe := by
  constructor
  · constructor
    · intro herr
      by_contra hc
      rw [Track.getEventsInRange, if_neg hc] at herr
      cases herr
    · intro hbad
      rw [Track.getEventsInRange, if_pos hbad]
  · intro l hok
    by_cases hbad : s < 0 ∨ e < s
    · rw [Track.getEventsInRange, if_pos hbad] at hok
      cases hok
    · rw [Track.getEventsInRange, if_neg hbad] at hok
      cases hok
      refine ⟨rfl, ?_⟩
      exact List.Pairwise.sublist (List.filter_sublist t.events) h

/-- Witness for C3 on a sorted two-event track and the inclusive range
from the spec's test vector (notes at 240 and 480, range [240, 480]). -/
theorem track_getEventsInRange_spec_witness :
    (Track.mk "t1" "" [evB, evA]).events.Sorted timeLe ∧
      (((Track.mk "t1" "" [evB, evA]).getEventsInRange 240 480 =
          .error .invalidArgument) ↔ ((240 : Int) < 0 ∨ (480 : Int) < 240)) ∧
      ∀ l, (Track.mk "t1" "" [evB, evA]).getEventsInRange 240 480 = .ok l →
        l = (Track.mk "t1" "" [evB, evA]).getEvents.filter (inRange 240 480) ∧
          l.Sorted timeLe :=
  ⟨by decide, track_getEventsInRange_spec _ 240 480 (by decide)⟩

/-- C10: `addEvent` performs no event-id uniqueness check: on a track
already containing an event with id `x`, adding another event whose id
is also `x` succeeds (the operation is total) and the result holds at
least two events with id `x`. -/
theorem track_addEvent_no_id_uniqueness (t : Track) (e : Event) (x : String)
    (hid : e.id = x) (hmem : ∃ ev ∈ t.getEvents, ev.id = x) :
    2 ≤ (t.addEvent e).getEvents.countP (fun ev => ev.id == x) := by
  have hperm := sortByTime_perm (t.events ++ [e])
  have hcount : (t.addEvent e).getEvents.countP (fun ev => ev.id == x) =
      (t.events ++ [e]).countP (fun ev => ev.id == x) := hperm.countP_eq _
  rw [hcount, List.countP_append]
  have h1 : 0 < t.events.countP (fun ev => ev.id == x) := by
    rw [List.countP_pos_iff]
    obtain ⟨ev, hev, hevx⟩ := hmem
    exact ⟨ev, hev, by simp [hevx]⟩
  have h2 : List.countP (fun ev => ev.id == x) [e] = 1 := by
    simp [List.countP_cons, hid]
  omega

/-- Witness for C10: `evC` and a same-id co-located event added twice. -/
theorem track_addEvent_no_id_uniqueness_witness :
    (Event.mk "evA" ⟨960⟩ (.note 72 50 ⟨10⟩)).id = "evA" ∧
      (∃ ev ∈ (Track.make "t1" "" [evA, evB]).getEvents, ev.id = "evA") ∧
      2 ≤ ((Track.make "t1" "" [evA, evB]).addEvent
          (Event.mk "evA" ⟨960⟩ (.note 72 50 ⟨10⟩))).getEvents.countP
          (fun ev => ev.id == "evA") :=
  ⟨rfl, by decide,
    track_addEvent_no_id_uniqueness _ _ "evA" rfl (by decide)⟩

end Kagula

namespace Kagula

/-- `new Project(tracks = [])`: validates the elements (statically
satisfied here) and stores the argument array (`this.tracksArray = tracks`);
the id-keyed map is derived from the same list (`Project.tracksMap`). -/
def Project.make (tracks : List Track := []) : Project :=
  ⟨tracks⟩

/-- Every entry of the constructor-built map has its key equal to the id
of the track it maps to. -/
theorem mapSet_keys_id (m : List (String × Track)) (t : Track)
    (h : ∀ kv ∈ m, kv.1 = kv.2.id) :
    ∀ kv ∈ mapSet m t.id t, kv.1 = kv.2.id := by
  intro kv hkv
  rw [mapSet] at hkv
  by_cases hany : m.any (fun p => p.1 == t.id)
  · rw [if_pos hany] at hkv
    obtain ⟨kv0, hkv0, hkveq⟩ := List.mem_map.mp hkv
    by_cases h0 : kv0.1 = t.id
    · rw [if_pos h0] at hkveq
      subst hkveq; rfl
    · rw [if_neg h0] at hkveq
      subst hkveq; exact h kv0 hkv0
  · rw [if_neg hany] at hkv
    rcases List.mem_append.mp hkv with hkv1 | hkv1
    · exact h kv hkv1
    · rcases List.mem_singleton.mp hkv1 with rfl
      rfl

theorem buildTracksMap_go_keys_id (ts : List Track)
    (acc : List (String × Track)) (h : ∀ kv ∈ acc, kv.1 = kv.2.id) :
    ∀ kv ∈ ts.foldl (fun m t => mapSet m t.id t) acc, kv.1 = kv.2.id := by
  induction ts generalizing acc with
  | nil => simpa using h
  | cons t ts ih => exact ih (mapSet acc t.id t) (mapSet_keys_id acc t h)

theorem buildTracksMap_keys_id (ts : List Track) :
    ∀ kv ∈ buildTracksMap ts, kv.1 = kv.2.id :=
  buildTracksMap_go_keys_id ts [] (by simp)

/-- A found track's id is the id it was looked up by. -/
theorem getTrack_some_id {p : Project} {tid : String} {tr : Track}
    (h : p.getTrack tid = some tr) : tr.id = tid := by
  rw [Project.getTrack] at h
  rcases hf : p.tracksMap.find? (fun kv => kv.1 == tid) with _ | kv
  · rw [hf] at h; cases h
  · rw [hf] at h
    have hkey : kv.1 = kv.2.id :=
      buildTracksMap_keys_id p.tracks kv (List.mem_of_find?_eq_some hf)
    have htid : kv.1 = tid := by
      have := List.find?_some hf
      simpa using this
    cases h
    rw [← hkey, htid]

/-- Updating or appending a key neither adds nor removes other keys. -/
theorem mapSet_no_key (m : List (String × Track)) (k : String) (v : Track)
    (k' : String) :
    (∀ kv ∈ mapSet m k v, kv.1 ≠ k') ↔ (∀ kv ∈ m, kv.1 ≠ k') ∧ k ≠ k' := by
  rw [mapSet]
  by_cases hany : m.any (fun p => p.1 == k)
  · rw [if_pos hany]
    obtain ⟨kv0, hkv0, hkv0k⟩ := List.any_eq_true.mp hany
    have hkv0k' : kv0.1 = k := by simpa using hkv0k
    constructor
    · intro hall
      refine ⟨?_, ?_⟩
      · intro kv hkv
        by_cases hk : kv.1 = k
        · have : (k, v) ∈ m.map (fun p => if p.1 = k then (k, v) else p) :=
            List.mem_map.mpr ⟨kv, hkv, by rw [if_pos hk]⟩
          have := hall (k, v) this
          simpa [hk] using this
        · have : kv ∈ m.map (fun p => if p.1 = k then (k, v) else p) :=
            List.mem_map.mpr ⟨kv, hkv, by rw [if_neg hk]⟩
          exact hall kv this
      · have : (k, v) ∈ m.map (fun p => if p.1 = k then (k, v) else p) :=
          List.mem_map.mpr ⟨kv0, hkv0, by rw [if_pos hkv0k']⟩
        simpa using hall (k, v) this
    · rintro ⟨hall, hkk⟩ kv hkv
      obtain ⟨kv1, hkv1, hkv1eq⟩ := List.mem_map.mp hkv
      by_cases hk : kv1.1 = k
      · rw [if_pos hk] at hkv1eq
        subst hkv1eq; exact hkk
      · rw [if_neg hk] at hkv1eq
        subst hkv1eq; exact hall kv1 hkv1
  · rw [if_neg hany]
    constructor
    · intro hall
      exact ⟨fun kv hkv => hall kv (List.mem_append_left _ hkv),
        by simpa using hall (k, v) (List.mem_append_right _ (List.mem_singleton.mpr rfl))⟩
    · rintro ⟨hall, hkk⟩ kv hkv
      rcases List.mem_append.mp hkv with hkv1 | hkv1
      · exact hall kv hkv1
      · rcases List.mem_singleton.mp hkv1 with rfl
        exact hkk

/-- The keys of the constructor-built map are exactly the ids occurring
in the track list. -/
theorem buildTracksMap_no_key (ts : List Track) (k : String) :
    (∀ kv ∈ buildTracksMap ts, kv.1 ≠ k) ↔ ∀ t ∈ ts, t.id ≠ k := by
  induction ts using List.reverseRecOn with
  | nil => simp [buildTracksMap]
  | append_singleton ts t ih =>
    have hfold : buildTracksMap (ts ++ [t]) =
        mapSet (buildTracksMap ts) t.id t := by
      rw [buildTracksMap, List.foldl_append, List.foldl_cons, List.foldl_nil]
      rfl
    rw [hfold, mapSet_no_key, ih]
    constructor
    · rintro ⟨hall, hne⟩ t' ht'
      rcases List.mem_append.mp ht' with h1 | h1
      · exact hall t' h1
      · rcases List.mem_singleton.mp h1 with rfl
        exact hne
    · intro hall
      exact ⟨fun t' ht' => hall t' (List.mem_append_left _ ht'),
        hall t (List.mem_append_right _ (List.mem_singleton.mpr rfl))⟩

/-- `getTrack` misses exactly when no track in the constructor list has
the requested id. -/
theorem getTrack_eq_none_iff (p : Project) (tid : String) :
    p.getTrack tid = none ↔ ∀ t ∈ p.tracks, t.id ≠ tid := by
  rw [Project.getTrack, Option.map_eq_none', List.find?_eq_none,
    ← buildTracksMap_no_key]
  constructor
  · intro h kv hkv
    have := h kv hkv
    simpa using this
  · intro h kv hkv
    simpa using h kv hkv

end Kagula

namespace Kagula

/-- With pairwise-distinct ids the constructor-built map is simply the
track list keyed by id (no `set` ever overwrites). -/
theorem buildTracksMap_go_of_nodup (ts : List Track)
    (acc : List (String × Track))
    (hdisj : ∀ t ∈ ts, ∀ kv ∈ acc, kv.1 ≠ t.id)
    (hnodup : (ts.map Track.id).Nodup) :
    ts.foldl (fun m t => mapSet m t.id t) acc =
      acc ++ ts.map (fun t => (t.id, t)) := by
  induction ts generalizing acc with
  | nil => simp
  | cons t ts ih =>
    have hnotin : acc.any (fun p => p.1 == t.id) = false := by
      rw [List.any_eq_false]
      intro kv hkv
      simpa using hdisj t (List.mem_cons_self t ts) kv hkv
    have hms : mapSet acc t.id t = acc ++ [(t.id, t)] := by
      rw [mapSet, if_neg (by simp [hnotin])]
    rw [List.foldl_cons, hms, ih (acc ++ [(t.id, t)])]
    · simp
    · intro t' ht' kv hkv
      have hn : (∀ x ∈ ts, ¬ x.id = t.id) ∧ (ts.map Track.id).Nodup := by
        simpa using hnodup
      rcases List.mem_append.mp hkv with h1 | h1
      · exact hdisj t' (List.mem_cons_of_mem t ht') kv h1
      · rcases List.mem_singleton.mp h1 with rfl
        exact fun hc => hn.1 t' ht' hc.symm
    · have hn : (∀ x ∈ ts, ¬ x.id = t.id) ∧ (ts.map Track.id).Nodup := by
        simpa using hnodup
      exact hn.2

theorem buildTracksMap_of_nodup {ts : List Track}
    (hnodup : (ts.map Track.id).Nodup) :
    buildTracksMap ts = ts.map (fun t => (t.id, t)) := by
  simpa using buildTracksMap_go_of_nodup ts [] (by simp) hnodup

/-- With pairwise-distinct ids, `getTracks()` returns exactly the
constructor's track list (same values, same order). -/
theorem getTracks_of_nodup {p : Project}
    (hnodup : (p.tracks.map Track.id).Nodup) :
    p.getTracks = p.tracks := by
  rw [Project.getTracks, Project.tracksMap, buildTracksMap_of_nodup hnodup,
    List.map_map]
  rw [show ((fun kv : String × Track => kv.2) ∘ fun t : Track => (t.id, t)) = id from rfl,
    List.map_id]

/-- With pairwise-distinct ids, `getTrack` is first-match lookup in the
constructor's track list. -/
theorem getTrack_of_nodup {p : Project} (tid : String)
    (hnodup : (p.tracks.map Track.id).Nodup) :
    p.getTrack tid = p.tracks.find? (fun t => t.id == tid) := by
  rw [Project.getTrack, Project.tracksMap, buildTracksMap_of_nodup hnodup,
    List.find?_map]
  rw [show ((fun kv : String × Track => kv.1 == tid) ∘ fun t : Track => (t.id, t)) =
    (fun t : Track => t.id == tid) from rfl]
  rcases h : p.tracks.find? (fun t => t.id == tid) with _ | tr <;> simp [h]

/-- Two member tracks of a duplicate-free project with the same id are
the same track. -/
theorem mem_id_inj {ts : List Track} (hnodup : (ts.map Track.id).Nodup)
    {t1 t2 : Track} (h1 : t1 ∈ ts) (h2 : t2 ∈ ts) (hid : t1.id = t2.id) :
    t1 = t2 :=
  List.inj_on_of_nodup_map hnodup h1 h2 hid

end Kagula

namespace Kagula

/-- Replacing the entries of one id and filtering them away leaves the
other entries untouched, as the same values in the same order. -/
theorem filter_ne_map_replace (ts : List Track) (tid : String) (u : Track)
    (hu : u.id = tid) :
    (ts.map (fun t => if t.id = tid then u else t)).filter
        (fun t => t.id != tid) =
      ts.filter (fun t => t.id != tid) := by
  induction ts with
  | nil => rfl
  | cons a ts ih =>
    rw [List.map_cons, List.filter_cons, List.filter_cons]
    by_cases ha : a.id = tid
    · rw [if_pos ha]
      have h1 : (u.id != tid) = false := by simp [hu]
      have h2 : (a.id != tid) = false := by simp [ha]
      rw [h1, h2]
      simpa using ih
    · rw [if_neg ha]
      have h2 : (a.id != tid) = true := by simp [ha]
      rw [h2]
      simpa using ih

/-- Inversion for a successful `removeEvent`. -/
theorem removeEvent_ok_inv {p : Project} {tid eid : String} {q : Project}
    (h : p.removeEvent tid eid = .ok q) :
    ∃ tr, p.getTrack tid = some tr ∧
      q = ⟨p.tracks.map
        (fun t => if t.id = tid then tr.removeEvent eid else t)⟩ := by
  unfold Project.removeEvent at h
  rcases htr : p.getTrack tid with _ | tr
  · rw [htr] at h; cases h
  · rw [htr] at h
    simp only [Except.ok.injEq] at h
    exact ⟨tr, rfl, h.symm⟩

/-- Inversion for a successful internal `addEvent`. -/
theorem addEventInternal_ok_inv {p : Project} {tid : String} {e : Event}
    {q : Project} (h : p.addEventInternal tid e = .ok q) :
    ∃ tr, p.getTrack tid = some tr ∧
      q = ⟨p.tracks.map
        (fun t => if t.id = tid then tr.addEvent e else t)⟩ := by
  unfold Project.addEventInternal at h
  rcases htr : p.getTrack tid with _ | tr
  · rw [htr] at h; cases h
  · rw [htr] at h
    simp only [Except.ok.injEq] at h
    exact ⟨tr, rfl, h.symm⟩

/-- Inversion for a successful `addNoteEvent`. -/
theorem addNoteEvent_ok_inv {p : Project} {fid tid : String} {time : Ticks}
    {pv vv : Int} {du : Ticks} {q : Project} {n : Event}
    (h : p.addNoteEvent fid tid time pv vv du = .ok (q, n)) :
    ∃ tr, p.getTrack tid = some tr ∧ ¬ du.value ≤ 0 ∧
      n = ⟨fid, time, .note pv vv du⟩ ∧
      q = ⟨p.tracks.map
        (fun t => if t.id = tid then tr.addEvent n else t)⟩ := by
  unfold Project.addNoteEvent at h
  rcases hnote : Note.create fid time pv vv du with _ | note
  · rw [hnote] at h; cases h
  · rw [hnote] at h
    dsimp only at h
    rcases hint : p.addEventInternal tid note with _ | p2
    · rw [hint] at h; cases h
    · rw [hint] at h
      dsimp only at h
      simp only [Except.ok.injEq, Prod.mk.injEq] at h
      obtain ⟨hq, hn⟩ := h
      unfold Note.create at hnote
      by_cases hdu : du.value ≤ 0
      · rw [if_pos hdu] at hnote; cases hnote
      · rw [if_neg hdu] at hnote
        simp only [Except.ok.injEq] at hnote
        obtain ⟨tr, htr, hp2⟩ := addEventInternal_ok_inv hint
        subst hnote
        subst hn
        exact ⟨tr, htr, hdu, rfl, by rw [← hq, hp2]⟩

/-- C2 (frame / structural sharing): the receiver of every operation is
left untouched — in this embedding all operations are pure functions
mirroring the source's copy-on-write (`readonly` fields, spread copies,
`filter`/`map` producing fresh arrays), so the receiver value is
unchanged by construction — and in the project produced by
`addNoteEvent` or `removeEvent` on track id `tid`, every track whose id
differs from `tid` is the very same track value as in the receiver, in
the same iteration order (the replaced positions are exactly those whose
id is `tid`). -/
theorem project_event_ops_frame (p : Project) (tid : String) :
    (∀ (eid : String) (q : Project), p.removeEvent tid eid = .ok q →
        q.tracks.length = p.tracks.length ∧
        q.tracks.filter (fun t => t.id != tid) =
          p.tracks.filter (fun t => t.id != tid)) ∧
    (∀ (fid : String) (time : Ticks) (pv vv : Int) (du : Ticks)
        (q : Project) (n : Event),
        p.addNoteEvent fid tid time pv vv du = .ok (q, n) →
        q.tracks.length = p.tracks.length ∧
        q.tracks.filter (fun t => t.id != tid) =
          p.tracks.filter (fun t => t.id != tid)) := by
  constructor
  · intro eid q hok
    obtain ⟨tr, htr, hq⟩ := removeEvent_ok_inv hok
    subst hq
    refine ⟨by simp, ?_⟩
    have hid0 : tr.id = tid := getTrack_some_id htr
    exact filter_ne_map_replace p.tracks tid (tr.removeEvent eid) hid0
  · intro fid time pv vv du q n hok
    obtain ⟨tr, htr, -, -, hq⟩ := addNoteEvent_ok_inv hok
    subst hq
    refine ⟨by simp, ?_⟩
    have hid0 : tr.id = tid := getTrack_some_id htr
    exact filter_ne_map_replace p.tracks tid (tr.addEvent n) hid0

/-- Witness for C2 on a two-track project: the event is removed from
track `T1`; track `T2` survives as the identical value. -/
theorem project_event_ops_frame_witness :
    (∀ (eid : String) (q : Project),
        (Project.make [Track.make "T1" "" [evA], Track.make "T2" "" [evB]]).removeEvent
            "T1" eid = .ok q →
        q.tracks.length =
          (Project.make [Track.make "T1" "" [evA],
            Track.make "T2" "" [evB]]).tracks.length ∧
        q.tracks.filter (fun t => t.id != "T1") =
          (Project.make [Track.make "T1" "" [evA],
            Track.make "T2" "" [evB]]).tracks.filter (fun t => t.id != "T1")) ∧
    (∀ (fid : String) (time : Ticks) (pv vv : Int) (du : Ticks)
        (q : Project) (n : Event),
        (Project.make [Track.make "T1" "" [evA],
            Track.make "T2" "" [evB]]).addNoteEvent fid "T1" time pv vv du =
          .ok (q, n) →
        q.tracks.length =
          (Project.make [Track.make "T1" "" [evA],
            Track.make "T2" "" [evB]]).tracks.length ∧
        q.tracks.filter (fun t => t.id != "T1") =
          (Project.make [Track.make "T1" "" [evA],
            Track.make "T2" "" [evB]]).tracks.filter (fun t => t.id != "T1")) :=
  project_event_ops_frame (Project.make [Track.make "T1" "" [evA],
    Track.make "T2" "" [evB]]) "T1"

end Kagula

namespace Kagula

/-- C4: at the `Project` level, `removeEvent(trackId, eventId)` raises
`InvalidArgumentError` exactly when no track of the project has id
`trackId`; when the track exists but holds no event with id `eventId`
the call succeeds and returns a project equal to the original, and
`removeTrack` with an absent `trackId` likewise returns the original
project (silent no-ops).  The content-equality parts hold on projects
satisfying the reachable-state invariants (pairwise-distinct track ids,
per-track sorted events). -/
theorem project_remove_policies (p : Project) (tid eid : String)
    (hnodup : (p.tracks.map Track.id).Nodup)
    (hsorted : ∀ t ∈ p.tracks, t.events.Sorted timeLe) :
    ((p.removeEvent tid eid = .error .invalidArgument) ↔
      ∀ t ∈ p.tracks, t.id ≠ tid) ∧
    (∀ tr, p.getTrack tid = some tr → (∀ ev ∈ tr.events, ev.id ≠ eid) →
      p.removeEvent tid eid = .ok p) ∧
    ((∀ t ∈ p.tracks, t.id ≠ tid) → p.removeTrack tid = p) := by
  refine ⟨?_, ?_, ?_⟩
  · rw [← getTrack_eq_none_iff]
    unfold Project.removeEvent
    rcases htr : p.getTrack tid with _ | tr
    · simp
    · simp
  · intro tr htr heid
    have htrmem : tr ∈ p.tracks := by
      rw [getTrack_of_nodup tid hnodup] at htr
      exact List.mem_of_find?_eq_some htr
    have htrid : tr.id = tid := getTrack_some_id htr
    have hfil : tr.events.filter (fun e => e.id != eid) = tr.events := by
      rw [List.filter_eq_self]
      intro ev hev
      simpa using heid ev hev
    have hrm : tr.removeEvent eid = tr := by
      rw [Track.removeEvent, hfil, Track.make,
        sortByTime_of_sorted (hsorted tr htrmem)]
    have hmap : p.tracks.map (fun t => if t.id = tid then tr else t) =
        p.tracks := by
      have hcongr : ∀ t ∈ p.tracks,
          (if t.id = tid then tr else t) = t := by
        intro t ht
        by_cases h : t.id = tid
        · rw [if_pos h]
          exact mem_id_inj hnodup htrmem ht (by rw [htrid, h])
        · rw [if_neg h]
      have hmc := List.map_congr_left hcongr
      simpa using hmc
    unfold Project.removeEvent
    rw [htr]
    dsimp only
    rw [hrm, hmap]
  · intro habs
    unfold Project.removeTrack
    rw [getTracks_of_nodup hnodup]
    have : p.tracks.filter (fun t => t.id != tid) = p.tracks := by
      rw [List.filter_eq_self]
      intro t ht
      simpa using habs t ht
    rw [this]

/-- Witness for C4: a one-track project; removing an absent event id and
an absent track id are both no-ops, and the error case characterization
is available. -/
theorem project_remove_policies_witness :
    ((Project.make [Track.make "T1" "" [evA]]).tracks.map Track.id).Nodup ∧
      (∀ t ∈ (Project.make [Track.make "T1" "" [evA]]).tracks,
        t.events.Sorted timeLe) ∧
      ((((Project.make [Track.make "T1" "" [evA]]).removeEvent "T1" "nope" =
            .error .invalidArgument) ↔
          ∀ t ∈ (Project.make [Track.make "T1" "" [evA]]).tracks,
            t.id ≠ "T1") ∧
        (∀ tr, (Project.make [Track.make "T1" "" [evA]]).getTrack "T1" =
            some tr →
          (∀ ev ∈ tr.events, ev.id ≠ "nope") →
          (Project.make [Track.make "T1" "" [evA]]).removeEvent "T1" "nope" =
            .ok (Project.make [Track.make "T1" "" [evA]])) ∧
        ((∀ t ∈ (Project.make [Track.make "T1" "" [evA]]).tracks,
            t.id ≠ "T2") →
          (Project.make [Track.make "T1" "" [evA]]).removeTrack "T2" =
            Project.make [Track.make "T1" "" [evA]])) :=
  ⟨by decide, by decide,
    project_remove_policies (Project.make [Track.make "T1" "" [evA]])
      "T1" "nope" (by decide) (by decide) |>.1,
    (project_remove_policies (Project.make [Track.make "T1" "" [evA]])
      "T1" "nope" (by decide) (by decide)).2.1,
    (project_remove_policies (Project.make [Track.make "T1" "" [evA]])
      "T2" "nope" (by decide) (by decide)).2.2⟩

end Kagula

namespace Kagula

/-- C5: `Project.getEvents()` and (for a valid range)
`Project.getEventsInRange` return the concatenation of the per-track
(range-filtered) event sequences sorted globally by ascending
`time.value`, and the sort is a stable merge: for every time value `v`,
the events of time `v` appear exactly as in the concatenation — i.e.
first in per-track order, then in track iteration order. -/
theorem project_getEvents_merge (p : Project) (s e v : Int)
    (hval : ¬ (s < 0 ∨ e < s)) :
    (p.getEvents.Sorted timeLe ∧
      p.getEvents.filter (fun a => a.time.value == v) =
        ((p.tracks.map (fun t => t.events)).flatten).filter
          (fun a => a.time.value == v)) ∧
    (p.getEventsInRange s e =
        .ok (sortByTime
          (p.tracks.map (fun t => t.events.filter (inRange s e))).flatten) ∧
      (sortByTime
        (p.tracks.map (fun t => t.events.filter (inRange s e))).flatten).Sorted
          timeLe ∧
      (sortByTime
          (p.tracks.map (fun t => t.events.filter (inRange s e))).flatten).filter
          (fun a => a.time.value == v) =
        ((p.tracks.map (fun t => t.events.filter (inRange s e))).flatten).filter
          (fun a => a.time.value == v)) := by
  refine ⟨⟨sortByTime_sorted _, filter_time_sortByTime _ v⟩, ?_, ?_, ?_⟩
  · unfold Project.getEventsInRange
    rw [if_neg hval]
  · exact sortByTime_sorted _
  · exact filter_time_sortByTime _ v

/-- Witness for C5: the spec's two-track scenario (notes at ticks
100/300/500 and 200/400) with the range [150, 350] and the tie class at
time 300. -/
theorem project_getEvents_merge_witness :
    ¬ ((150 : Int) < 0 ∨ (350 : Int) < 150) ∧
      (((Project.make
          [Track.make "T1" ""
            [⟨"n100", ⟨100⟩, .note 60 100 ⟨10⟩⟩,
              ⟨"n300", ⟨300⟩, .note 61 100 ⟨10⟩⟩,
              ⟨"n500", ⟨500⟩, .note 62 100 ⟨10⟩⟩],
            Track.make "T2" ""
              [⟨"n200", ⟨200⟩, .note 63 100 ⟨10⟩⟩,
                ⟨"n400", ⟨400⟩, .note 64 100 ⟨10⟩⟩]]).getEvents.Sorted timeLe ∧
        (Project.make
          [Track.make "T1" ""
            [⟨"n100", ⟨100⟩, .note 60 100 ⟨10⟩⟩,
              ⟨"n300", ⟨300⟩, .note 61 100 ⟨10⟩⟩,
              ⟨"n500", ⟨500⟩, .note 62 100 ⟨10⟩⟩],
            Track.make "T2" ""
              [⟨"n200", ⟨200⟩, .note 63 100 ⟨10⟩⟩,
                ⟨"n400", ⟨400⟩, .note 64 100 ⟨10⟩⟩]]).getEvents.filter
            (fun a => a.time.value == 300) =
          (((Project.make
            [Track.make "T1" ""
              [⟨"n100", ⟨100⟩, .note 60 100 ⟨10⟩⟩,
                ⟨"n300", ⟨300⟩, .note 61 100 ⟨10⟩⟩,
                ⟨"n500", ⟨500⟩, .note 62 100 ⟨10⟩⟩],
              Track.make "T2" ""
                [⟨"n200", ⟨200⟩, .note 63 100 ⟨10⟩⟩,
                  ⟨"n400", ⟨400⟩, .note 64 100 ⟨10⟩⟩]]).tracks.map
              (fun t => t.events)).flatten).filter
            (fun a => a.time.value == 300)) ∧
        ((Project.make
          [Track.make "T1" ""
            [⟨"n100", ⟨100⟩, .note 60 100 ⟨10⟩⟩,
              ⟨"n300", ⟨300⟩, .note 61 100 ⟨10⟩⟩,
              ⟨"n500", ⟨500⟩, .note 62 100 ⟨10⟩⟩],
            Track.make "T2" ""
              [⟨"n200", ⟨200⟩, .note 63 100 ⟨10⟩⟩,
                ⟨"n400", ⟨400⟩, .note 64 100 ⟨10⟩⟩]]).getEventsInRange 150 350 =
            .ok (sortByTime
              ((Project.make
                [Track.make "T1" ""
                  [⟨"n100", ⟨100⟩, .note 60 100 ⟨10⟩⟩,
                    ⟨"n300", ⟨300⟩, .note 61 100 ⟨10⟩⟩,
                    ⟨"n500", ⟨500⟩, .note 62 100 ⟨10⟩⟩],
                  Track.make "T2" ""
                    [⟨"n200", ⟨200⟩, .note 63 100 ⟨10⟩⟩,
                      ⟨"n400", ⟨400⟩, .note 64 100 ⟨10⟩⟩]]).tracks.map
                (fun t => t.events.filter (inRange 150 350))).flatten) ∧
          (sortByTime
            ((Project.make
              [Track.make "T1" ""
                [⟨"n100", ⟨100⟩, .note 60 100 ⟨10⟩⟩,
                  ⟨"n300", ⟨300⟩, .note 61 100 ⟨10⟩⟩,
                  ⟨"n500", ⟨500⟩, .note 62 100 ⟨10⟩⟩],
                Track.make "T2" ""
                  [⟨"n200", ⟨200⟩, .note 63 100 ⟨10⟩⟩,
                    ⟨"n400", ⟨400⟩, .note 64 100 ⟨10⟩⟩]]).tracks.map
              (fun t => t.events.filter (inRange 150 350))).flatten).Sorted
              timeLe ∧
          (sortByTime
            ((Project.make
              [Track.make "T1" ""
                [⟨"n100", ⟨100⟩, .note 60 100 ⟨10⟩⟩,
                  ⟨"n300", ⟨300⟩, .note 61 100 ⟨10⟩⟩,
                  ⟨"n500", ⟨500⟩, .note 62 100 ⟨10⟩⟩],
                Track.make "T2" ""
                  [⟨"n200", ⟨200⟩, .note 63 100 ⟨10⟩⟩,
                    ⟨"n400", ⟨400⟩, .note 64 100 ⟨10⟩⟩]]).tracks.map
              (fun t => t.events.filter (inRange 150 350))).flatten).filter
              (fun a => a.time.value == 300) =
            (((Project.make
              [Track.make "T1" ""
                [⟨"n100", ⟨100⟩, .note 60 100 ⟨10⟩⟩,
                  ⟨"n300", ⟨300⟩, .note 61 100 ⟨10⟩⟩,
                  ⟨"n500", ⟨500⟩, .note 62 100 ⟨10⟩⟩],
                Track.make "T2" ""
                  [⟨"n200", ⟨200⟩, .note 63 100 ⟨10⟩⟩,
                    ⟨"n400", ⟨400⟩, .note 64 100 ⟨10⟩⟩]]).tracks.map
              (fun t => t.events.filter (inRange 150 350))).flatten).filter
              (fun a => a.time.value == 300))) :=
  ⟨by decide,
    project_getEvents_merge
      (Project.make
        [Track.make "T1" ""
          [⟨"n100", ⟨100⟩, .note 60 100 ⟨10⟩⟩,
            ⟨"n300", ⟨300⟩, .note 61 100 ⟨10⟩⟩,
            ⟨"n500", ⟨500⟩, .note 62 100 ⟨10⟩⟩],
          Track.make "T2" ""
            [⟨"n200", ⟨200⟩, .note 63 100 ⟨10⟩⟩,
              ⟨"n400", ⟨400⟩, .note 64 100 ⟨10⟩⟩]]) 150 350 300 (by decide)⟩

end Kagula

namespace Kagula

/-- Replacing all entries of one id by a track of that same id does not
change the id sequence. -/
theorem map_id_replace (ts : List Track) (tid : String) (u : Track)
    (hu : u.id = tid) :
    (ts.map (fun t => if t.id = tid then u else t)).map Track.id =
      ts.map Track.id := by
  rw [List.map_map]
  apply List.map_congr_left
  intro t ht
  by_cases h : t.id = tid
  · rw [Function.comp_apply, if_pos h, hu, h]
  · rw [Function.comp_apply, if_neg h]

/-- The projects reachable through the public `Project` operations from a
constructor call whose track list carries pairwise-distinct ids; the
`addTrack` case records that the generated id is fresh, which is the
collision-freeness the spec requires of the injected id generator. -/
inductive ProjectReachable : Project → Prop where
  | make (tracks : List Track) (hnodup : (tracks.map Track.id).Nodup) :
      ProjectReachable (Project.make tracks)
  | addTrack (p : Project) (fid name : String) (hp : ProjectReachable p)
      (hfresh : ∀ t ∈ p.tracks, t.id ≠ fid) :
      ProjectReachable (p.addTrack fid name).1
  | removeTrack (p : Project) (tid : String) (hp : ProjectReachable p) :
      ProjectReachable (p.removeTrack tid)
  | addNote (p : Project) (fid tid : String) (time : Ticks) (pv vv : Int)
      (du : Ticks) (q : Project) (n : Event) (hp : ProjectReachable p)
      (hok : p.addNoteEvent fid tid time pv vv du = .ok (q, n)) :
      ProjectReachable q
  | removeEvent (p : Project) (tid eid : String) (q : Project)
      (hp : ProjectReachable p) (hok : p.removeEvent tid eid = .ok q) :
      ProjectReachable q

/-- C7 (amended): every key of the track mapping equals the id of the
track it maps to (this part holds for every project); and every project
reachable from a constructor call with pairwise-distinct track ids — via
`addTrack` with a fresh generated id, `removeTrack`, `addNoteEvent`,
`removeEvent` — contains no two tracks sharing an id (in the mapping and
in the cached track array alike).  The restriction on the constructor
input is forced: the constructor itself accepts duplicate-id lists, see
the counterexample. -/
theorem project_aggregate_invariant (p : Project) (h : ProjectReachable p) :
    (∀ kv ∈ p.tracksMap, kv.1 = kv.2.id) ∧
      (p.tracks.map Track.id).Nodup := by
  refine ⟨buildTracksMap_keys_id p.tracks, ?_⟩
  induction h with
  | make tracks hnodup => exact hnodup
  | addTrack p fid name hp hfresh ih =>
    have htracks : (p.addTrack fid name).1.tracks =
        p.tracks ++ [Track.create fid name []] := by
      unfold Project.addTrack Project.addTrackInstance
      dsimp only
      rw [getTracks_of_nodup ih]
    rw [htracks, List.map_append, List.nodup_append]
    refine ⟨ih, List.nodup_singleton _, ?_⟩
    intro a ha hb
    obtain ⟨t, ht, hta⟩ := List.mem_map.mp ha
    have hb1 : a = (Track.create fid name []).id := by
      simpa using hb
    refine hfresh t ht ?_
    rw [← hta] at hb1
    exact hb1
  | removeTrack p tid hp ih =>
    have htracks : (p.removeTrack tid).tracks =
        p.tracks.filter (fun t => t.id != tid) := by
      unfold Project.removeTrack
      dsimp only
      rw [getTracks_of_nodup ih]
    rw [htracks]
    exact List.Nodup.sublist ((List.filter_sublist _).map Track.id) ih
  | addNote p fid tid time pv vv du q n hp hok ih =>
    obtain ⟨tr, htr, -, -, hq⟩ := addNoteEvent_ok_inv hok
    subst hq
    dsimp only
    have hid0 : tr.id = tid := getTrack_some_id htr
    rw [map_id_replace p.tracks tid (tr.addEvent n) hid0]
    exact ih
  | removeEvent p tid eid q hp hok ih =>
    obtain ⟨tr, htr, hq⟩ := removeEvent_ok_inv hok
    subst hq
    dsimp only
    have hid0 : tr.id = tid := getTrack_some_id htr
    rw [map_id_replace p.tracks tid (tr.removeEvent eid) hid0]
    exact ih

/-- Witness for C7 at a concrete reachable project: two tracks added to
a one-track constructor project. -/
theorem project_aggregate_invariant_witness :
    (∀ kv ∈ ((Project.make [Track.make "T1" "" [evA]]).addTrack
        "T2" "Piano").1.tracksMap, kv.1 = kv.2.id) ∧
      (((Project.make [Track.make "T1" "" [evA]]).addTrack
        "T2" "Piano").1.tracks.map Track.id).Nodup :=
  project_aggregate_invariant _
    (ProjectReachable.addTrack _ "T2" "Piano"
      (ProjectReachable.make [Track.make "T1" "" [evA]] (by decide))
      (by decide))

/-- Counterexample to C7 as stated: the constructor accepts a list of
two valid tracks sharing the id `tX`; the resulting project keeps both
distinct same-id tracks in its cached track array — observably, the
track count and `getTracks()` report only the last one, while
`getEvents()` still returns the first one's event. -/
theorem project_constructor_duplicate_ids :
    Track.make "tX" "A" [evA] ∈
        (Project.make [Track.make "tX" "A" [evA],
          Track.make "tX" "B" []]).tracks ∧
      Track.make "tX" "B" [] ∈
        (Project.make [Track.make "tX" "A" [evA],
          Track.make "tX" "B" []]).tracks ∧
      Track.make "tX" "A" [evA] ≠ Track.make "tX" "B" [] ∧
      (Track.make "tX" "A" [evA]).id = (Track.make "tX" "B" []).id ∧
      (Project.make [Track.make "tX" "A" [evA],
        Track.make "tX" "B" []]).getTrackCount = 1 ∧
      (Project.make [Track.make "tX" "A" [evA],
        Track.make "tX" "B" []]).getTracks = [Track.make "tX" "B" []] ∧
      (Project.make [Track.make "tX" "A" [evA],
        Track.make "tX" "B" []]).getEvents = [evA] := by
  decide

end Kagula

namespace Kagula

/-- C8 (amended): the core `Seconds` constructor succeeds exactly when
the raw value is not less than zero under JavaScript comparison — every
finite value ≥ 0 succeeds, every negative value fails with
`InvalidArgumentError`, and NaN and `+Infinity` are also accepted (the
core constructor has no finiteness check); the finite-real-≥-0 rule
holds for the mutable-variant `Seconds`, whose `TimeValue` base rejects
non-finite input. -/
theorem seconds_make_characterization (v : JSNum) :
    ((∃ s, Seconds.make v = .ok s) ↔
      (v = .nan ∨ v = .posInf ∨ ∃ q, v = .finite q ∧ 0 ≤ q)) ∧
    ((∃ s, MutableTime.Seconds.make v = .ok s) ↔
      ∃ q, v = .finite q ∧ 0 ≤ q) := by
  cases v with
  | nan => simp [Seconds.make, JSNum.lt, MutableTime.Seconds.make]
  | posInf => simp [Seconds.make, JSNum.lt, MutableTime.Seconds.make]
  | negInf => simp [Seconds.make, JSNum.lt, MutableTime.Seconds.make]
  | finite q =>
    by_cases hq : q < 0
    · simp [Seconds.make, JSNum.lt, MutableTime.Seconds.make, hq,
        not_le.mpr hq]
    · simp [Seconds.make, JSNum.lt, MutableTime.Seconds.make, hq,
        not_lt.mp hq]

/-- Counterexample to C8 as stated: constructing the core `Seconds` from
`+Infinity` and from NaN succeeds, although neither value is finite. -/
theorem seconds_make_accepts_nonfinite :
    Seconds.make .posInf = .ok ⟨.posInf⟩ ∧
      Seconds.make .nan = .ok ⟨.nan⟩ ∧
      JSNum.isFinite .posInf = false ∧
      JSNum.isFinite .nan = false :=
  ⟨rfl, rfl, rfl, rfl⟩

/-- `Math.round` returns a nearest integer: its result is never farther
from the argument than any other integer. -/
theorem jsRound_nearest (q : Rat) (n : Int) :
    |q - (MutableTime.jsRound q : Rat)| ≤ |q - (n : Rat)| := by
  have h1 : ((MutableTime.jsRound q : Int) : Rat) ≤ q + 1 / 2 :=
    Int.floor_le (q + 1 / 2)
  have h2 : q + 1 / 2 < ((MutableTime.jsRound q : Int) : Rat) + 1 :=
    Int.lt_floor_add_one (q + 1 / 2)
  by_cases hn : n = MutableTime.jsRound q
  · rw [hn]
  · have hne : (MutableTime.jsRound q : Int) - n ≠ 0 :=
      sub_ne_zero.mpr (fun hc => hn hc.symm)
    have hd : (1 : Rat) ≤ |((MutableTime.jsRound q : Int) : Rat) - (n : Rat)| := by
      have h3 : (1 : Int) ≤ |(MutableTime.jsRound q : Int) - n| :=
        Int.one_le_abs hne
      have h4 : ((|(MutableTime.jsRound q : Int) - n| : Int) : Rat) =
          |((MutableTime.jsRound q : Int) : Rat) - (n : Rat)| := by
        push_cast
        rfl
      calc (1 : Rat) = ((1 : Int) : Rat) := by norm_num
        _ ≤ ((|(MutableTime.jsRound q : Int) - n| : Int) : Rat) := by
            exact_mod_cast h3
        _ = _ := h4
    have habs1 : |q - ((MutableTime.jsRound q : Int) : Rat)| ≤ 1 / 2 :=
      abs_le.mpr ⟨by linarith, by linarith⟩
    have htri : |((MutableTime.jsRound q : Int) : Rat) - (n : Rat)| ≤
        |((MutableTime.jsRound q : Int) : Rat) - q| + |q - (n : Rat)| :=
      abs_sub_le _ _ _
    have hcomm : |((MutableTime.jsRound q : Int) : Rat) - q| =
        |q - ((MutableTime.jsRound q : Int) : Rat)| := abs_sub_comm _ _
    linarith

/-- C9: the tick/second conversions of the mutable-variant time values
use exactly the specified formulas — `toSeconds` yields
`(ticks / ticksPerBeat) * (60 / bpm)` and `toTicks` yields
`(seconds * bpm / 60) * ticksPerBeat` rounded by `Math.round`, which is
a nearest-integer rounding (no other integer `n` is closer). -/
theorem time_conversion_formulas (t : MutableTime.Ticks)
    (s : MutableTime.Seconds) (tpb bpm : Rat) (n : Int)
    (ht : 0 ≤ t.value) (hs : 0 ≤ s.value)
    (htpb : 0 < tpb) (hbpm : 0 < bpm) :
    t.toSeconds tpb bpm = .ok ⟨t.value / tpb * (60 / bpm)⟩ ∧
      s.toTicks tpb bpm =
        .ok ⟨(MutableTime.jsRound (s.value * bpm / 60 * tpb) : Rat)⟩ ∧
      |s.value * bpm / 60 * tpb -
          (MutableTime.jsRound (s.value * bpm / 60 * tpb) : Rat)| ≤
        |s.value * bpm / 60 * tpb - (n : Rat)| := by
  refine ⟨?_, ?_, jsRound_nearest _ n⟩
  · have hnn : 0 ≤ t.value / tpb * (60 / bpm) :=
      mul_nonneg (div_nonneg ht htpb.le)
        (div_nonneg (by norm_num) hbpm.le)
    unfold MutableTime.Ticks.toSeconds MutableTime.Seconds.make
    dsimp only
    rw [if_neg (not_lt.mpr hnn)]
  · have hy : 0 ≤ s.value * bpm / 60 * tpb :=
      mul_nonneg (div_nonneg (mul_nonneg hs hbpm.le) (by norm_num)) htpb.le
    have hr : (0 : Int) ≤ MutableTime.jsRound (s.value * bpm / 60 * tpb) :=
      Int.le_floor.mpr (by push_cast; linarith)
    have hrq : ¬ ((MutableTime.jsRound (s.value * bpm / 60 * tpb) : Int) : Rat) < 0 :=
      not_lt.mpr (by exact_mod_cast hr)
    unfold MutableTime.Seconds.toTicks MutableTime.Ticks.make
    dsimp only
    rw [if_neg hrq]

/-- Witness for C9: 480 ticks at 480 ticks per beat and 120 bpm convert
to half a second; one second converts back to 960 ticks; 959 is no
closer. -/
theorem time_conversion_formulas_witness :
    (0 : Rat) ≤ (MutableTime.Ticks.mk 480).value ∧
      (0 : Rat) ≤ (MutableTime.Seconds.mk 1).value ∧
      (0 : Rat) < 480 ∧ (0 : Rat) < 120 ∧
      ((MutableTime.Ticks.mk 480).toSeconds 480 120 =
          .ok ⟨(MutableTime.Ticks.mk 480).value / 480 * (60 / 120)⟩ ∧
        (MutableTime.Seconds.mk 1).toTicks 480 120 =
          .ok ⟨(MutableTime.jsRound
            ((MutableTime.Seconds.mk 1).value * 120 / 60 * 480) : Rat)⟩ ∧
        |(MutableTime.Seconds.mk 1).value * 120 / 60 * 480 -
            (MutableTime.jsRound
              ((MutableTime.Seconds.mk 1).value * 120 / 60 * 480) : Rat)| ≤
          |(MutableTime.Seconds.mk 1).value * 120 / 60 * 480 -
            ((959 : Int) : Rat)|) :=
  ⟨by norm_num, by norm_num, by norm_num, by norm_num,
    time_conversion_formulas (MutableTime.Ticks.mk 480)
      (MutableTime.Seconds.mk 1) 480 120 959
      (by norm_num) (by norm_num) (by norm_num) (by norm_num)⟩

end Kagula
